import Mathlib

/-!
Shallow embedding of the multi-strategy chunking engine of the `rag-setup`
repository (backend/services/chunking), together with theorems checking the
natural-language specification against it.

Texts are modelled as `List Char` (Python `str` indexed by characters);
Python integers are modelled as `ℤ`; a Python function that can raise is
modelled as `Except PyError _`; loops whose progress the source does not
guarantee are modelled with explicit fuel (`none` = the loop has not
finished within `fuel` iterations, so `(∀ fuel, … = none)` = divergence).
-/

namespace RagSetup

/-- Python whitespace characters (the ASCII set matched by `str.strip`,
`str.isspace` and regex `\s` on the inputs this engine handles). -/
def pyWs (c : Char) : Bool :=
  c = ' ' || c = '\t' || c = '\n' || c = '\r' || c = '\x0b' || c = '\x0c'

/-- Python `str.strip()`: drop leading and trailing whitespace. -/
def stripL (l : List Char) : List Char :=
  ((l.dropWhile pyWs).reverse.dropWhile pyWs).reverse

/-- Python slicing `text[a:b]` for int bounds: negative indices count from
the end, and both bounds are clamped into `[0, len]`. -/
def pySlice (l : List Char) (a b : ℤ) : List Char :=
  let n : ℤ := l.length
  let a' : ℤ := if a < 0 then max (n + a) 0 else min a n
  let b' : ℤ := if b < 0 then max (n + b) 0 else min b n
  (l.drop a'.toNat).take (b' - a').toNat

/-- One page of the input document: `{"page_number": …, "text": …}`. -/
structure Page where
  page_number : ℤ
  text : List Char
deriving DecidableEq, Repr

/-- One entry of the page-offset map: `{"start": …, "end": …, "page_number": …}`
(`stop` stands for the dict key `"end"`, a reserved word in Lean). -/
structure PageMapEntry where
  start : ℤ
  stop : ℤ
  page_number : ℤ
deriving DecidableEq, Repr

/-- The page-offset-map construction loop shared by every strategy
(`character.py` lines 33–48 and its copies): page `i` starts at the running
offset; the offset advances by the page length plus 2 (the `"\n\n"`
separator) for every page but the last. -/
def buildPageMapAux (off : ℤ) : List Page → List PageMapEntry
  | [] => []
  | [p] => [⟨off, off + p.text.length, p.page_number⟩]
  | p :: q :: rest =>
      ⟨off, off + p.text.length, p.page_number⟩ ::
        buildPageMapAux (off + p.text.length + 2) (q :: rest)

/-- Page-offset map of a page list, starting from offset 0. -/
def buildPageMap (pages : List Page) : List PageMapEntry :=
  buildPageMapAux 0 pages

/-- The concatenated document text: page texts joined with the 2-character
separator `"\n\n"` (`file_processor.py` line 45). -/
def joinPages : List Page → List Char
  | [] => []
  | [p] => p.text
  | p :: q :: rest => p.text ++ ('\n' :: '\n' :: joinPages (q :: rest))

/-- Page numbers intersecting the half-open span `[s, e)`:
`s < p["end"] and e > p["start"]`, in map order. -/
def pageNumbersFor (pm : List PageMapEntry) (s e : ℤ) : List ℤ :=
  (pm.filter fun p => s < p.stop && e > p.start).map (·.page_number)

/-- A produced chunk: `{"text": …, "metadata": {"page_numbers": …}}`. -/
structure Chunk where
  text : List Char
  page_numbers : List ℤ
deriving DecidableEq, Repr

/-! ## Character strategy (`character.py`) -/

/-- The chunk one iteration of the Character window loop emits:
`text[start:start+chunk_size]` with the page numbers intersecting
`[start, start + len(chunk_text))`. -/
def charWindow (cs : ℤ) (text : List Char) (pm : List PageMapEntry)
    (start : ℤ) : Chunk :=
  let ct := pySlice text start (start + cs)
  ⟨ct, pageNumbersFor pm start (start + (ct.length : ℤ))⟩

/-- The `while start < text_len` loop of `CharacterChunkingStrategy.chunk`
(lines 50–74), instrumented to also return each chunk's start offset.
Each iteration emits the window at `start`, breaks once `end >= text_len`,
and otherwise advances `start += chunk_size - chunk_overlap` (note: the
source does not clamp this stride). `none` means the loop did not finish
within `fuel` iterations. -/
def charChunkLoopF (cs co : ℤ) (text : List Char) (pm : List PageMapEntry) :
    ℕ → ℤ → Option (List (ℤ × Chunk))
  | 0, _ => none
  | fuel + 1, start =>
      if start < (text.length : ℤ) then
        if start + cs ≥ (text.length : ℤ) then
          some [(start, charWindow cs text pm start)]
        else
          (charChunkLoopF cs co text pm fuel (start + (cs - co))).map
            ((start, charWindow cs text pm start) :: ·)
      else some []

/-- `CharacterChunkingStrategy.chunk`, keeping each chunk paired with the
start offset at which it was emitted: empty input returns `[]`, otherwise
the window loop runs from offset 0. -/
def charChunkPairs (fuel : ℕ) (cs co : ℤ) (text : List Char)
    (pm : List PageMapEntry) : Option (List (ℤ × Chunk)) :=
  if text = [] then some [] else charChunkLoopF cs co text pm fuel 0

/-- `CharacterChunkingStrategy.chunk`: the chunk list actually returned. -/
def charChunk (fuel : ℕ) (cs co : ℤ) (text : List Char)
    (pm : List PageMapEntry) : Option (List Chunk) :=
  (charChunkPairs fuel cs co text pm).map (List.map (·.2))

/-! ## Strategy factory (`chunk_factory.py`) -/

/-- Exception classes a factory call could surface. `ChunkFactory.get_strategy`
raises the Python builtin `ValueError`; `ConfigurationError` is the class
declared in `utils/exceptions.py` (never raised by the factory). Messages
are not modelled. -/
inductive PyError where
  | valueError : PyError
  | configurationError : PyError
deriving DecidableEq, Repr

/-- A constructed strategy instance: each constructor stores exactly the
fields the corresponding `__init__` assigns (the semantic strategy also
stores its provider handle, not modelled). None of the `__init__` methods
validates its arguments. -/
inductive Strategy where
  | character (chunk_size chunk_overlap : ℤ)
  | paragraph (min_chunk_size : ℤ)
  | sentence (sentences_per_chunk overlap : ℤ)
  | semantic (threshold : ℚ)
  | recursive (chunk_size chunk_overlap : ℤ) (separators : List (List Char))
  | hierarchical (split_level : ℤ)
deriving DecidableEq, Repr

/-- The configuration dict passed to the factory: `none` models an absent
key, read through `config.get(key, default)`. -/
structure ChunkConfig where
  chunk_size : Option ℤ := none
  chunk_overlap : Option ℤ := none
  min_chunk_size : Option ℤ := none
  sentences_per_chunk : Option ℤ := none
  overlap : Option ℤ := none
  separators : Option (List (List Char)) := none
  split_level : Option ℤ := none
  threshold : Option ℚ := none
deriving DecidableEq, Repr

/-- The default separator list of the Recursive strategy:
`["\n\n", "\n", " ", ""]`. -/
def defaultSeparators : List (List Char) :=
  ["\n\n".toList, "\n".toList, " ".toList, []]

/-- `ChunkFactory.get_strategy` (lines 17–64): dispatch on the strategy
name, reading each option with its default; `semantic` first checks that an
embedding provider was passed; an unrecognized name raises `ValueError`. -/
def getStrategy (strategy_type : String) (config : ChunkConfig)
    (embedding_provider : Bool) : Except PyError Strategy :=
  if strategy_type = "character" then
    .ok (.character (config.chunk_size.getD 1000) (config.chunk_overlap.getD 200))
  else if strategy_type = "paragraph" then
    .ok (.paragraph (config.min_chunk_size.getD 100))
  else if strategy_type = "sentence" then
    .ok (.sentence (config.sentences_per_chunk.getD 5) (config.overlap.getD 1))
  else if strategy_type = "semantic" then
    if !embedding_provider then .error .valueError
    else .ok (.semantic (config.threshold.getD (4 / 5)))
  else if strategy_type = "recursive" then
    .ok (.recursive (config.chunk_size.getD 1000) (config.chunk_overlap.getD 200)
      (config.separators.getD defaultSeparators))
  else if strategy_type = "hierarchical" then
    .ok (.hierarchical (config.split_level.getD 2))
  else .error .valueError

/-- The recognized strategy names, in dispatch order. -/
def recognizedNames : List String :=
  ["character", "paragraph", "sentence", "semantic", "recursive", "hierarchical"]

/-! ## Python string splitting -/

/-- Index of the leftmost occurrence of `sep` in `l` (Python `str.find`). -/
def findInfixIdx (sep : List Char) : List Char → Option ℕ
  | [] => if sep = [] then some 0 else none
  | c :: t =>
      if sep.isPrefixOf (c :: t) then some 0
      else (findInfixIdx sep t).map (· + 1)

/-- Python `text.split(sep)` for a non-empty `sep`: cut at each leftmost
occurrence. Fueled; `fuel = len(text) + 1` always suffices because every
step consumes at least `len(sep) ≥ 1` characters. -/
def splitOnAux (sep : List Char) : ℕ → List Char → List (List Char)
  | 0, l => [l]
  | fuel + 1, l =>
      match findInfixIdx sep l with
      | none => [l]
      | some i => l.take i :: splitOnAux sep fuel (l.drop (i + sep.length))

/-- Python `text.split(sep)` (used with `sep = "\n\n"`). -/
def pySplit (sep l : List Char) : List (List Char) :=
  splitOnAux sep (l.length + 1) l

/-! ## Paragraph strategy (`paragraph.py`) -/

/-- The paragraph-accumulation loop of `ParagraphChunkingStrategy.chunk`
(lines 55–116). State: remaining split paragraphs, `current_chunk_text`,
`current_chunk_start`, `current_pos`. Whitespace-only paragraphs only
advance the cursor; a paragraph joins the running chunk while the combined
length stays below `min_chunk_size`, otherwise the running chunk is flushed
with the page numbers of its tracked span; the cursor advances by
`len(p) + 2` for every paragraph; the final running chunk is flushed. -/
def paraLoop (mcs : ℤ) (pm : List PageMapEntry) :
    List (List Char) → List Char → ℤ → ℤ → List Chunk
  | [], cur, cstart, _ =>
      if cur ≠ [] then [⟨cur, pageNumbersFor pm cstart (cstart + cur.length)⟩]
      else []
  | p :: rest, cur, cstart, pos =>
      if stripL p = [] then paraLoop mcs pm rest cur cstart (pos + p.length + 2)
      else if cur = [] then paraLoop mcs pm rest p pos (pos + p.length + 2)
      else if (cur.length : ℤ) + 2 + (p.length : ℤ) < mcs then
        paraLoop mcs pm rest (cur ++ '\n' :: '\n' :: p) cstart (pos + p.length + 2)
      else
        ⟨cur, pageNumbersFor pm cstart (cstart + cur.length)⟩ ::
          paraLoop mcs pm rest p pos (pos + p.length + 2)

/-- `ParagraphChunkingStrategy.chunk`: split on `"\n\n"` and accumulate.
An absent page list is modelled as `[]` (both yield an empty page map). -/
def paragraphChunk (mcs : ℤ) (text : List Char) (pages : List Page) :
    List Chunk :=
  if text = [] then []
  else paraLoop mcs (buildPageMap pages) (pySplit "\n\n".toList text) [] 0 0

/-! ## Sentence strategy (`sentence.py`) -/

/-- Sentence-terminal punctuation `[.!?]`. -/
def sentTerminal (c : Char) : Bool :=
  c = '.' || c = '!' || c = '?'

/-- Leftmost match of the separator regex `(?<=[.!?])\s+` in `prev :: l`,
looking for a whitespace char whose predecessor is terminal punctuation;
returns the match's offset into `l` and its (greedy) length. -/
def findSentSep : Char → List Char → Option (ℕ × ℕ)
  | _, [] => none
  | prev, c :: rest =>
      if sentTerminal prev && pyWs c then
        some (0, 1 + (rest.takeWhile pyWs).length)
      else (findSentSep c rest).map (fun p => (p.1 + 1, p.2))

/-- Leftmost match of `(?<=[.!?])\s+` in `l` (no match can start at
offset 0, which has no preceding character). -/
def findSentSepTop (l : List Char) : Option (ℕ × ℕ) :=
  match l with
  | [] => none
  | c :: rest => (findSentSep c rest).map (fun p => (p.1 + 1, p.2))

/-- Python `re.split(r'((?<=[.!?])\s+)', text)`: alternating content parts
and captured whitespace separators. Fueled; each step consumes at least 2
characters, so `fuel = len(text)` suffices. -/
def splitSentPartsAux : ℕ → List Char → List (List Char)
  | 0, l => [l]
  | fuel + 1, l =>
      match findSentSepTop l with
      | none => [l]
      | some (i, n) =>
          l.take i :: (l.drop i).take n :: splitSentPartsAux fuel (l.drop (i + n))

/-- The capturing sentence split of `SentenceChunkingStrategy.chunk`
(line 56). -/
def splitSentParts (l : List Char) : List (List Char) :=
  splitSentPartsAux l.length l

/-- A sentence with its tracked raw-offset span (`sentence.py` lines 84–91):
`text` is the stripped part, the span covers the raw part. -/
structure SentenceSpan where
  text : List Char
  start : ℤ
  stop : ℤ
deriving DecidableEq, Repr

/-- `re.match(r'\s+', part)` succeeds iff the part starts with whitespace. -/
def startsWithWs (part : List Char) : Bool :=
  match part with
  | [] => false
  | c :: _ => pyWs c

/-- The part-classification loop of `SentenceChunkingStrategy.chunk`
(lines 60–92): empty parts are skipped; an all-whitespace part starting
with whitespace is a separator and only advances the cursor; otherwise the
stripped part is recorded with the raw span `[pos, pos + len(part))` and
the cursor advances. -/
def collectSentences : ℤ → List (List Char) → List SentenceSpan
  | _, [] => []
  | pos, part :: rest =>
      if part = [] then collectSentences pos rest
      else if stripL part = [] && startsWithWs part then
        collectSentences (pos + part.length) rest
      else
        (if stripL part ≠ [] then [⟨stripL part, pos, pos + part.length⟩]
         else []) ++
          collectSentences (pos + part.length) rest

/-- The sentence list (with spans) extracted from a text. -/
def extractSentences (text : List Char) : List SentenceSpan :=
  collectSentences 0 (splitSentParts text)

/-- The window index list of `range(0, len(sentences), stride)` followed by
`sentences[i : i + spc]`: every index below `n` divisible by `stride`,
in increasing order, mapped to its window. -/
def sentenceGroups (spc stride : ℕ) (l : List SentenceSpan) :
    List (List SentenceSpan) :=
  ((List.range l.length).filter (fun i => i % stride = 0)).map
    (fun i => (l.drop i).take spc)

/-- The chunk built from one (non-empty) sentence window: sentences joined
by a single space, page numbers from the first sentence's start to the last
sentence's end. -/
def groupChunk (pm : List PageMapEntry) (g : List SentenceSpan) : Chunk :=
  match g with
  | [] => ⟨[], []⟩
  | s :: rest =>
      ⟨List.intercalate [' '] ((s :: rest).map (·.text)),
        pageNumbersFor pm s.start ((s :: rest).getLast (by simp)).stop⟩

/-- `SentenceChunkingStrategy.chunk` (lines 22–143): empty text or no
sentences yield `[]`; at most `sentences_per_chunk` sentences yield the
whole original text as a single chunk with the page numbers of the span
from the first sentence's start to the last sentence's end; otherwise the
sentences are windowed with stride `max(1, spc - overlap)` (the `if not
group: break` of line 118–119 is the `takeWhile`: it only triggers when
`spc ≤ 0` makes every window empty). An absent page list is modelled
as `[]`. -/
def sentenceChunk (spc ov : ℤ) (text : List Char) (pages : List Page) :
    List Chunk :=
  if text = [] then []
  else
    let pm := buildPageMap pages
    match extractSentences text with
    | [] => []
    | s0 :: rest =>
        if ((s0 :: rest).length : ℤ) ≤ spc then
          [⟨text, pageNumbersFor pm s0.start ((s0 :: rest).getLast (by simp)).stop⟩]
        else
          let stride : ℤ := if spc - ov < 1 then 1 else spc - ov
          ((sentenceGroups spc.toNat stride.toNat (s0 :: rest)).takeWhile
            (· ≠ [])).map (groupChunk pm)

/-! ## Semantic strategy (`semantic.py`)

The walk over consecutive sentence pairs (lines 46–73) is modelled over
sentence *indices*, with the cosine similarity of each consecutive pair
supplied as an input list: `sims[k]` is the value
`cosine_similarity(embeddings[k], embeddings[k+1])` that the code obtains
from the external embedding provider and `sklearn` (both external
collaborators, and floating-point besides, so the numeric computation
itself is not re-modelled; only the threshold comparison and the grouping
are). `current_chunk_sentences` holds `sentences[j]` for the indices `j`
of the running group. -/

/-- The pair walk: processing sentence `i` against similarity `s =
sims[i-1]`, append `i` to the running group when `s >= threshold`,
otherwise flush the running group and start a new one at `i`; the final
running group is always flushed. -/
def semGroupsAux (θ : ℚ) : List ℚ → List ℕ → ℕ → List (List ℕ)
  | [], cur, _ => [cur]
  | s :: srest, cur, i =>
      if θ ≤ s then semGroupsAux θ srest (cur ++ [i]) (i + 1)
      else cur :: semGroupsAux θ srest [i] (i + 1)

/-- The sentence-index groups the Semantic strategy turns into chunks
(one chunk per group, sentences joined by a single space): the walk starts
with group `[0]` at sentence 1. -/
def semGroups (θ : ℚ) (sims : List ℚ) : List (List ℕ) :=
  semGroupsAux θ sims [0] 1

/-! ## Recursive strategy (`recursive.py`, `_split_text` lines 100–182) -/

/-- The characters Python 3.7+ `re.escape` prefixes with a backslash. -/
def reSpecialChars : List Char :=
  ['(', ')', '[', ']', '{', '}', '?', '*', '+', '-', '|', '^', '$', '\\',
   '.', '&', '~', '#', ' ', '\t', '\n', '\r', '\x0b', '\x0c']

/-- Python `re.escape` (`_regex_escape`, line 184–185). -/
def pyRegexEscape (s : List Char) : List Char :=
  s.flatMap fun c => if c ∈ reSpecialChars then ['\\', c] else [c]

/-- Python `sep in text`: substring occurrence. -/
def occursIn (sep text : List Char) : Bool :=
  (findInfixIdx sep text).isSome

/-- The separator-selection loop (lines 110–117): take the first separator
that is the empty string (chosen with an empty remaining list) or occurs in
the text (escaped or plain, matching the source's redundant disjunction),
keeping the separators after it as the remaining list. -/
def chooseSepLoop (text : List Char) :
    List (List Char) → Option (List Char × List (List Char))
  | [] => none
  | sep :: rest =>
      if sep = [] then some ([], [])
      else if occursIn (pyRegexEscape sep) text || occursIn sep text then
        some (sep, rest)
      else chooseSepLoop text rest

/-- Separator selection (lines 106–117): the loop's choice, defaulting to
the last separator with no remaining list when nothing matched. -/
def chooseSep (text : List Char) (separators : List (List Char)) :
    List Char × List (List Char) :=
  (chooseSepLoop text separators).getD (separators.getLastD [], [])

/-- Total character count of a list of parts. -/
def sumLen (l : List (List Char)) : ℕ :=
  (l.map List.length).sum

/-- The overlap carry-over loop (lines 146–153), iterating the flushed
parts from the end backward: keep taking items while the kept length plus
the next item stays strictly below `chunk_overlap`, counting
`len(item) + len(separator)` per kept item, and stop at the first item that
does not fit. -/
def carryGo (co sepLen : ℤ) :
    List (List Char) → List (List Char) × ℤ → List (List Char) × ℤ
  | [], st => st
  | item :: rest, (oc, ol) =>
      if ol + (item.length : ℤ) < co then
        carryGo co sepLen rest (item :: oc, ol + item.length + sepLen)
      else (oc, ol)

/-- The trailing subset carried over into the next running chunk after a
flush. -/
def overlapCarry (co sepLen : ℤ) (cur : List (List Char)) :
    List (List Char) × ℤ :=
  carryGo co sepLen cur.reverse ([], 0)

/-- The greedy packing loop over the split parts (lines 130–174). State:
`good_splits`, `current_chunk`, `current_length`. On overflow the running
chunk is flushed (joined by the separator, dropped if all-whitespace) and
the overlap carry-over seeds the next one; an oversized part recurses into
the remaining separators through `rec` when any remain (`hasMore`),
otherwise it is simply appended. `none` propagates fuel exhaustion of the
recursion. -/
def mergeLoop (cs co : ℤ) (separator : List Char) (hasMore : Bool)
    (rec : List Char → Option (List (List Char))) :
    List (List Char) → List (List Char) → List (List Char) → ℤ →
    Option (List (List Char) × List (List Char) × ℤ)
  | [], gs, cur, clen => some (gs, cur, clen)
  | split :: rest, gs, cur, clen =>
      if clen + (split.length : ℤ) +
          (if cur ≠ [] then (separator.length : ℤ) else 0) > cs then
        let st :=
          if cur ≠ [] then
            let doc := List.intercalate separator cur
            let gs0 := if stripL doc ≠ [] then gs ++ [doc] else gs
            let oc := overlapCarry co separator.length cur
            (gs0, oc.1, oc.2)
          else (gs, cur, clen)
        if (split.length : ℤ) > cs ∧ hasMore = true then
          match rec split with
          | none => none
          | some sub =>
              mergeLoop cs co separator hasMore rec rest (st.1 ++ sub) [] 0
        else
          mergeLoop cs co separator hasMore rec rest st.1
            (st.2.1 ++ [split]) (st.2.2 + split.length)
      else
        let clen1 := if cur ≠ [] then clen + (separator.length : ℤ) else clen
        mergeLoop cs co separator hasMore rec rest gs (cur ++ [split])
          (clen1 + split.length)

/-- `RecursiveChunkingStrategy._split_text` (lines 100–182): choose a
separator, split (the empty separator splits into single characters), pack
greedily, recurse into oversized parts with the remaining separators, and
flush the final running chunk (dropped if all-whitespace). Fueled on the
recursion depth; the separator list strictly shrinks at each recursive
call, so `fuel = len(separators) + 1` always suffices. -/
def splitTextF (cs co : ℤ) : ℕ → List Char → List (List Char) →
    Option (List (List Char))
  | 0, _, _ => none
  | fuel + 1, text, separators =>
      let sel := chooseSep text separators
      let splits := if sel.1 ≠ [] then pySplit sel.1 text
                    else text.map fun c => [c]
      match mergeLoop cs co sel.1 (!sel.2.isEmpty)
          (fun s => splitTextF cs co fuel s sel.2) splits [] [] 0 with
      | none => none
      | some (gs, cur, _) =>
          if cur ≠ [] then
            let doc := List.intercalate sel.1 cur
            if stripL doc ≠ [] then some (gs ++ [doc]) else some gs
          else some gs

/-- A page-map entry matches its page: `end - start == len(page.text)` and
the page number is copied over. -/
def pageEntryMatches (e : PageMapEntry) (p : Page) : Prop :=
  e.stop = e.start + (p.text.length : ℤ) ∧ e.page_number = p.page_number

/-- Consecutive page-map intervals are separated by exactly the 2-character
`"\n\n"` separator. -/
def adjacentGap (a b : PageMapEntry) : Prop :=
  b.start = a.stop + 2

/-! ## Theorems -/

/-- Every entry of the page map matches its page. -/
theorem buildPageMapAux_forall2 : ∀ (off : ℤ) (pages : List Page),
    List.Forall₂ pageEntryMatches (buildPageMapAux off pages) pages
  | _, [] => .nil
  | _, [_] => .cons ⟨rfl, rfl⟩ .nil
  | off, p :: q :: rest =>
      .cons ⟨rfl, rfl⟩ (buildPageMapAux_forall2 (off + p.text.length + 2) (q :: rest))

/-- The page map of a non-empty page list starts with an entry at the
running offset. -/
theorem buildPageMapAux_head (off : ℤ) (p : Page) (rest : List Page) :
    ∃ t, buildPageMapAux off (p :: rest) =
      ⟨off, off + p.text.length, p.page_number⟩ :: t := by
  cases rest with
  | nil => exact ⟨[], rfl⟩
  | cons q r => exact ⟨_, rfl⟩

/-- Consecutive entries of the page map are separated by exactly 2. -/
theorem buildPageMapAux_chain : ∀ (off : ℤ) (pages : List Page),
    List.Chain' adjacentGap (buildPageMapAux off pages)
  | _, [] => List.chain'_nil
  | _, [_] => List.chain'_singleton _
  | off, p :: q :: rest => by
      obtain ⟨t, ht⟩ := buildPageMapAux_head (off + p.text.length + 2) q rest
      have hrec := buildPageMapAux_chain (off + p.text.length + 2) (q :: rest)
      show List.Chain' adjacentGap (⟨off, off + p.text.length, p.page_number⟩ ::
        buildPageMapAux (off + p.text.length + 2) (q :: rest))
      rw [ht] at hrec ⊢
      exact List.Chain'.cons (show _ = _ + 2 by rfl) hrec

/-- Every entry of the page map lies at or beyond the running offset and
has a well-ordered interval. -/
theorem buildPageMapAux_bounds : ∀ (off : ℤ) (pages : List Page),
    ∀ e ∈ buildPageMapAux off pages, off ≤ e.start ∧ e.start ≤ e.stop
  | _, [] => by intro e he; cases he
  | off, [p] => by
      intro e he
      rcases List.mem_singleton.mp he with rfl
      constructor
      · exact le_refl _
      · show off ≤ off + (p.text.length : ℤ)
        omega
  | off, p :: q :: rest => by
      intro e he
      rcases List.mem_cons.mp he with rfl | hmem
      · constructor
        · exact le_refl _
        · show off ≤ off + (p.text.length : ℤ)
          omega
      · have := buildPageMapAux_bounds (off + p.text.length + 2) (q :: rest) e hmem
        omega

/-- The page-map intervals are pairwise non-overlapping (in order, each
interval ends strictly before the next begins). -/
theorem buildPageMapAux_pairwise : ∀ (off : ℤ) (pages : List Page),
    List.Pairwise (fun a b : PageMapEntry => a.stop < b.start)
      (buildPageMapAux off pages)
  | _, [] => List.Pairwise.nil
  | _, [_] => List.pairwise_singleton _ _
  | off, p :: q :: rest => by
      show List.Pairwise _ (⟨off, off + p.text.length, p.page_number⟩ ::
        buildPageMapAux (off + p.text.length + 2) (q :: rest))
      refine List.Pairwise.cons ?_ (buildPageMapAux_pairwise _ (q :: rest))
      intro e he
      have := buildPageMapAux_bounds (off + p.text.length + 2) (q :: rest) e he
      show off + (p.text.length : ℤ) < e.start
      omega

/-- The last interval of the page map ends at the running offset plus the
length of the concatenated (separator-joined) text. -/
theorem buildPageMapAux_last : ∀ (off : ℤ) (pages : List Page), pages ≠ [] →
    (buildPageMapAux off pages).getLast?.map (·.stop) =
      some (off + ((joinPages pages).length : ℤ))
  | _, [], h => absurd rfl h
  | off, [p], _ => by simp [buildPageMapAux, joinPages]
  | off, p :: q :: rest, _ => by
      have ih := buildPageMapAux_last (off + p.text.length + 2) (q :: rest)
        (by simp)
      obtain ⟨t, ht⟩ := buildPageMapAux_head (off + p.text.length + 2) q rest
      show (List.getLast? (⟨off, off + p.text.length, p.page_number⟩ ::
        buildPageMapAux (off + p.text.length + 2) (q :: rest))).map (·.stop) = _
      rw [ht, List.getLast?_cons_cons, ← ht, ih]
      show some _ = some _
      congr 1
      show off + (p.text.length : ℤ) + 2 + ((joinPages (q :: rest)).length : ℤ) = _
      have : joinPages (p :: q :: rest) =
          p.text ++ ('\n' :: '\n' :: joinPages (q :: rest)) := rfl
      rw [this]
      simp only [List.length_append, List.length_cons]
      push_cast
      ring

/-- When `chunk_overlap ≥ chunk_size` and the text is longer than
`chunk_size`, the window loop makes no forward progress: from any
non-positive start offset it never finishes, whatever the fuel. -/
theorem charChunkLoopF_none (cs co : ℤ) (text : List Char)
    (pm : List PageMapEntry) (h1 : cs ≤ co) (hlen : 1 ≤ (text.length : ℤ))
    (h2 : cs < (text.length : ℤ)) :
    ∀ (fuel : ℕ) (start : ℤ), start ≤ 0 →
      charChunkLoopF cs co text pm fuel start = none := by
  intro fuel
  induction fuel with
  | zero => intro start _; rfl
  | succ n ih =>
      intro start hs
      have hlt : start < (text.length : ℤ) := by omega
      have he : ¬ start + cs ≥ (text.length : ℤ) := by omega
      simp only [charChunkLoopF, if_pos hlt, if_neg he,
        ih (start + (cs - co)) (by omega), Option.map_none']

/-- C1: the claim says that with `chunk_overlap ≥ chunk_size` the Character
strategy still terminates on every non-empty input (stride clamped to ≥ 1)
with a non-empty chunk list. The code has no clamp: whenever
`chunk_overlap ≥ chunk_size` and the text is longer than `chunk_size`, the
loop never terminates — for every fuel the fueled loop fails to finish, so
no chunk list is ever produced. -/
theorem character_no_clamp_diverges (cs co : ℤ) (text : List Char)
    (pm : List PageMapEntry) (fuel : ℕ) (h1 : cs ≤ co) (hne : text ≠ [])
    (h2 : cs < (text.length : ℤ)) :
    charChunkPairs fuel cs co text pm = none := by
  have hlen : 1 ≤ (text.length : ℤ) := by
    have : 0 < text.length := List.length_pos.mpr hne
    exact_mod_cast this
  unfold charChunkPairs
  rw [if_neg hne]
  exact charChunkLoopF_none cs co text pm h1 hlen h2 fuel 0 le_rfl

/-- Witness for C1's theorem: `chunk_size = 2`, `chunk_overlap = 2`,
text `"abc"` — the loop does not finish within 50 iterations. -/
theorem character_no_clamp_diverges_witness :
    charChunkPairs 50 2 2 "abc".toList [] = none :=
  character_no_clamp_diverges 2 2 "abc".toList [] 50 (by decide) (by decide)
    (by decide)

/-- Length of a Python slice with non-negative bounds. -/
theorem pySlice_length (l : List Char) (a b : ℤ) (ha : 0 ≤ a) (hb : 0 ≤ b) :
    ((pySlice l a b).length : ℤ) = max 0 (min b l.length - min a l.length) := by
  simp only [pySlice, if_neg (not_lt.mpr ha), if_neg (not_lt.mpr hb),
    List.length_take, List.length_drop]
  omega

/-- With `0 ≤ overlap < size`, from any start offset inside the text the
window loop finishes (given fuel beyond the remaining length) and the
emitted spans cover every remaining offset. -/
theorem charChunkLoopF_covers (cs co : ℤ) (text : List Char)
    (pm : List PageMapEntry) (h0 : 0 ≤ co) (h1 : co < cs) :
    ∀ (fuel : ℕ) (start : ℤ), 0 ≤ start →
      ((text.length : ℤ) - start).toNat < fuel →
      ∃ l, charChunkLoopF cs co text pm fuel start = some l ∧
        ∀ p : ℤ, start ≤ p → p < (text.length : ℤ) →
          ∃ pr ∈ l, pr.1 ≤ p ∧ p < pr.1 + ((pr.2.text.length : ℤ)) := by
  intro fuel
  induction fuel with
  | zero => intro start _ hf; omega
  | succ n ih =>
      intro start hs hf
      by_cases hlt : start < (text.length : ℤ)
      · have hct : ((pySlice text start (start + cs)).length : ℤ) =
            min (start + cs) (text.length : ℤ) - start := by
          rw [pySlice_length text start (start + cs) hs (by omega)]
          omega
        by_cases he : start + cs ≥ (text.length : ℤ)
        · refine ⟨[(start, charWindow cs text pm start)], ?_, ?_⟩
          · simp only [charChunkLoopF, if_pos hlt, if_pos he]
          · intro p hp1 hp2
            refine ⟨(start, charWindow cs text pm start), List.mem_singleton.mpr rfl,
              hp1, ?_⟩
            show p < start + ((pySlice text start (start + cs)).length : ℤ)
            omega
        · obtain ⟨l', hl', hcov⟩ := ih (start + (cs - co)) (by omega) (by omega)
          refine ⟨(start, charWindow cs text pm start) :: l', ?_, ?_⟩
          · simp only [charChunkLoopF, if_pos hlt, if_neg he, hl', Option.map_some']
          · intro p hp1 hp2
            by_cases hpc : p < start + cs
            · refine ⟨(start, charWindow cs text pm start), List.mem_cons_self _ _,
                hp1, ?_⟩
              show p < start + ((pySlice text start (start + cs)).length : ℤ)
              omega
            · obtain ⟨pr, hpr, hpr1, hpr2⟩ := hcov p (by omega) hp2
              exact ⟨pr, List.mem_cons_of_mem _ hpr, hpr1, hpr2⟩
      · refine ⟨[], ?_, ?_⟩
        · simp only [charChunkLoopF, if_neg hlt]
        · intro p hp1 hp2
          omega

/-- C5: for the Character strategy with `0 ≤ chunk_overlap < chunk_size`
(the spec's parameter domain) and any non-empty input text, the loop
terminates and the union of the emitted chunks' spans
`[start, start + len(chunk_text))` covers every offset of the input. -/
theorem character_spans_cover (cs co : ℤ) (text : List Char)
    (pm : List PageMapEntry) (h0 : 0 ≤ co) (h1 : co < cs) (hne : text ≠ []) :
    ∃ pairs, charChunkPairs (text.length + 1) cs co text pm = some pairs ∧
      ∀ p : ℤ, 0 ≤ p → p < (text.length : ℤ) →
        ∃ pr ∈ pairs, pr.1 ≤ p ∧ p < pr.1 + ((pr.2.text.length : ℤ)) := by
  unfold charChunkPairs
  rw [if_neg hne]
  exact charChunkLoopF_covers cs co text pm h0 h1 (text.length + 1) 0 le_rfl
    (by omega)

/-- Witness for C5's theorem: `chunk_size = 3`, `chunk_overlap = 1`,
text `"abcde"`. -/
theorem character_spans_cover_witness :
    ∃ pairs, charChunkPairs ("abcde".toList.length + 1) 3 1 "abcde".toList []
        = some pairs ∧
      ∀ p : ℤ, 0 ≤ p → p < ("abcde".toList.length : ℤ) →
        ∃ pr ∈ pairs, pr.1 ≤ p ∧ p < pr.1 + ((pr.2.text.length : ℤ)) :=
  character_spans_cover 3 1 "abcde".toList [] (by decide) (by decide) (by decide)

/-- C3 counterexample: for pages `[{1,"AAAA"},{2,"BBBB"}]` the page map is
exactly `[(0,4,1), (6,10,2)]` while the concatenated text has length 10:
offset 4 lies in `[0, 10)` but in neither interval (`¬(0 ≤ 4 < 4)` and
`¬(6 ≤ 4 < 10)`), so the intervals are neither contiguous nor cover
`[0, total_length)`, refuting the claim as stated. -/
theorem pageMap_not_covering :
    buildPageMap [⟨1, "AAAA".toList⟩, ⟨2, "BBBB".toList⟩] =
      [⟨0, 4, 1⟩, ⟨6, 10, 2⟩] ∧
    ((joinPages [⟨1, "AAAA".toList⟩, ⟨2, "BBBB".toList⟩]).length : ℤ) = 10 ∧
    ¬ ((0 : ℤ) ≤ 4 ∧ (4 : ℤ) < 4) ∧ ¬ ((6 : ℤ) ≤ 4 ∧ (4 : ℤ) < 10) := by
  decide

/-- C3 amended: for every non-empty page list, the page map's entries match
their pages (`end - start = len(page.text)`, page number copied), the
intervals are ordered and pairwise non-overlapping, consecutive intervals
are separated by exactly the 2-character separator (`next.start = prev.end
+ 2`), the first interval starts at 0 and the last ends at the length of
the concatenated text — so the intervals cover `[0, total_length)` except
the two separator offsets between consecutive pages. -/
theorem pageMap_structure (pages : List Page) (hne : pages ≠ []) :
    List.Forall₂ pageEntryMatches (buildPageMap pages) pages ∧
    List.Chain' adjacentGap (buildPageMap pages) ∧
    List.Pairwise (fun a b : PageMapEntry => a.stop < b.start)
      (buildPageMap pages) ∧
    (∃ e t, buildPageMap pages = e :: t ∧ e.start = 0) ∧
    (buildPageMap pages).getLast?.map (·.stop) =
      some ((joinPages pages).length : ℤ) := by
  refine ⟨buildPageMapAux_forall2 0 pages, buildPageMapAux_chain 0 pages,
    buildPageMapAux_pairwise 0 pages, ?_, ?_⟩
  · cases pages with
    | nil => exact absurd rfl hne
    | cons p rest =>
        obtain ⟨t, ht⟩ := buildPageMapAux_head 0 p rest
        exact ⟨_, t, ht, rfl⟩
  · have h := buildPageMapAux_last 0 pages hne
    rw [show buildPageMap pages = buildPageMapAux 0 pages from rfl, h]
    congr 1
    omega

/-- Witness for C3's amended theorem at pages `[{1,"AAAA"},{2,"BBBB"}]`. -/
theorem pageMap_structure_witness :
    List.Forall₂ pageEntryMatches
      (buildPageMap [⟨1, "AAAA".toList⟩, ⟨2, "BBBB".toList⟩])
      [⟨1, "AAAA".toList⟩, ⟨2, "BBBB".toList⟩] ∧
    List.Chain' adjacentGap
      (buildPageMap [⟨1, "AAAA".toList⟩, ⟨2, "BBBB".toList⟩]) ∧
    List.Pairwise (fun a b : PageMapEntry => a.stop < b.start)
      (buildPageMap [⟨1, "AAAA".toList⟩, ⟨2, "BBBB".toList⟩]) ∧
    (∃ e t, buildPageMap [⟨1, "AAAA".toList⟩, ⟨2, "BBBB".toList⟩] = e :: t ∧
      e.start = 0) ∧
    (buildPageMap [⟨1, "AAAA".toList⟩, ⟨2, "BBBB".toList⟩]).getLast?.map
      (·.stop) =
      some ((joinPages [⟨1, "AAAA".toList⟩, ⟨2, "BBBB".toList⟩]).length : ℤ) :=
  pageMap_structure [⟨1, "AAAA".toList⟩, ⟨2, "BBBB".toList⟩] (by decide)

/-- C2 counterexample: building the Character strategy with the malformed
configuration `chunk_size = 0` does not raise — it returns a usable
strategy instance holding the malformed value, refuting the claim that
construction fails with a ValidationError. -/
theorem construction_accepts_bad_config :
    getStrategy "character" { chunk_size := some 0 } false =
      .ok (.character 0 200) := by
  rfl

/-- C2 amended: no configuration validation is performed at construction
time — for every `chunk_size` and `chunk_overlap` (including non-positive
`chunk_size`), building the Character strategy succeeds and stores the
values unchanged; no ValidationError is raised. -/
theorem construction_never_validates (cs co : ℤ) :
    getStrategy "character" { chunk_size := some cs, chunk_overlap := some co }
      false = .ok (.character cs co) := by
  rfl

/-- C9 counterexample: both failure cases of `get_strategy` (unknown name;
`semantic` without a provider) raise the Python builtin `ValueError`, which
is a different exception class from the repository's `ConfigurationError`
(`utils/exceptions.py`), refuting the claim that the factory fails with a
ConfigurationError. -/
theorem getStrategy_fails_with_valueError :
    getStrategy "bogus" {} false = .error .valueError ∧
    getStrategy "semantic" {} false = .error .valueError ∧
    PyError.valueError ≠ PyError.configurationError := by
  refine ⟨rfl, rfl, by decide⟩

/-- C9 amended: `get_strategy` fails — with a builtin `ValueError`, not the
repository's `ConfigurationError` — exactly when the requested name is not
one of the six recognized names or when `semantic` is requested without an
embedding provider; for every recognized name with the required provider
present it returns a constructed strategy without error. -/
theorem getStrategy_error_iff (name : String) (cfg : ChunkConfig)
    (prov : Bool) :
    ((∃ s, getStrategy name cfg prov = .ok s) ↔
      (name ∈ recognizedNames ∧ ¬ (name = "semantic" ∧ prov = false))) ∧
    (∀ e, getStrategy name cfg prov = .error e → e = .valueError) := by
  unfold getStrategy recognizedNames
  split_ifs <;> simp_all

/-- C8: with the default configuration (`min_chunk_size = 100`), the
two-paragraph example input yields exactly two chunks, one per paragraph
block. -/
theorem paragraph_example_two_chunks :
    (paragraphChunk 100 ("This is sentence one. This is sentence two. This is sentence three.\n\nThis is a new paragraph. It has some more text.").toList []).map
        Chunk.text =
      ["This is sentence one. This is sentence two. This is sentence three.".toList,
       "This is a new paragraph. It has some more text.".toList] := by
  decide

/-- A list of whitespace characters strips to the empty string. -/
theorem stripL_eq_nil_of_ws (p : List Char) (h : ∀ c ∈ p, pyWs c = true) :
    stripL p = [] := by
  unfold stripL
  rw [List.dropWhile_eq_nil_iff.mpr h]
  rfl

/-- Every character of every part of a Python split comes from the input. -/
theorem splitOnAux_mem (sep : List Char) : ∀ (fuel : ℕ) (l part : List Char),
    part ∈ splitOnAux sep fuel l → ∀ c ∈ part, c ∈ l := by
  intro fuel
  induction fuel with
  | zero =>
      intro l part hp c hc
      rcases List.mem_singleton.mp hp with rfl
      exact hc
  | succ n ih =>
      intro l part hp c hc
      simp only [splitOnAux] at hp
      rcases hi : findInfixIdx sep l with _ | i
      · rw [hi] at hp
        rcases List.mem_singleton.mp hp with rfl
        exact hc
      · rw [hi] at hp
        rcases List.mem_cons.mp hp with rfl | hmem
        · exact List.take_subset _ _ hc
        · exact List.drop_subset _ _ (ih _ part hmem c hc)

/-- On whitespace-only paragraphs, the accumulation loop started with an
empty running chunk emits nothing. -/
theorem paraLoop_ws (mcs : ℤ) (pm : List PageMapEntry) :
    ∀ (parts : List (List Char)),
      (∀ part ∈ parts, ∀ c ∈ part, pyWs c = true) →
      ∀ (cstart pos : ℤ), paraLoop mcs pm parts [] cstart pos = [] := by
  intro parts
  induction parts with
  | nil => intro _ cstart pos; simp [paraLoop]
  | cons p rest ih =>
      intro h cstart pos
      have hs : stripL p = [] :=
        stripL_eq_nil_of_ws p (h p (List.mem_cons_self _ _))
      simp only [paraLoop, hs, if_pos]
      exact ih (fun part hp => h part (List.mem_cons_of_mem _ hp)) cstart _

/-- Whitespace characters are not sentence-terminal punctuation. -/
theorem pyWs_not_terminal (c : Char) (h : pyWs c = true) :
    sentTerminal c = false := by
  simp only [pyWs, Bool.or_eq_true, decide_eq_true_eq] at h
  rcases h with ((((rfl | rfl) | rfl) | rfl) | rfl) | rfl <;> rfl

/-- No sentence separator can match when no character is terminal. -/
theorem findSentSep_none : ∀ (l : List Char) (prev : Char),
    sentTerminal prev = false → (∀ c ∈ l, sentTerminal c = false) →
    findSentSep prev l = none := by
  intro l
  induction l with
  | nil => intro prev _ _; rfl
  | cons c rest ih =>
      intro prev hprev hall
      simp only [findSentSep, hprev, Bool.false_and, Bool.false_eq_true,
        if_false, ih c (hall c (List.mem_cons_self _ _))
          (fun d hd => hall d (List.mem_cons_of_mem _ hd)), Option.map_none']

/-- A text with no terminal punctuation splits into a single part. -/
theorem splitSentParts_no_terminal (l : List Char)
    (h : ∀ c ∈ l, sentTerminal c = false) : splitSentParts l = [l] := by
  unfold splitSentParts
  cases l with
  | nil => rfl
  | cons c rest =>
      have : findSentSepTop (c :: rest) = none := by
        show Option.map (fun p => (p.1 + 1, p.2)) (findSentSep c rest) = none
        rw [findSentSep_none rest c (h c (List.mem_cons_self _ _))
          (fun d hd => h d (List.mem_cons_of_mem _ hd))]
        rfl
      simp only [List.length_cons, splitSentPartsAux, this]

/-- C10: a non-empty but whitespace-only input makes both the Paragraph and
the Sentence strategy return an empty chunk list, for every configuration
and any page list (also the empty one modelling absent pages). -/
theorem whitespace_only_empty_chunks (text : List Char) (pages : List Page)
    (mcs spc ov : ℤ) (h1 : text ≠ []) (h2 : ∀ c ∈ text, pyWs c = true) :
    paragraphChunk mcs text pages = [] ∧ sentenceChunk spc ov text pages = [] := by
  constructor
  · unfold paragraphChunk
    rw [if_neg h1]
    exact paraLoop_ws mcs (buildPageMap pages) _
      (fun part hp c hc => h2 c (splitOnAux_mem _ _ _ _ hp c hc)) 0 0
  · unfold sentenceChunk
    rw [if_neg h1]
    have hterm : ∀ c ∈ text, sentTerminal c = false :=
      fun c hc => pyWs_not_terminal c (h2 c hc)
    have hsplit : splitSentParts text = [text] :=
      splitSentParts_no_terminal text hterm
    have hsent : extractSentences text = [] := by
      unfold extractSentences
      rw [hsplit]
      cases text with
      | nil => exact absurd rfl h1
      | cons c rest =>
          have hstrip : stripL (c :: rest) = [] := stripL_eq_nil_of_ws _ h2
          have hws : startsWithWs (c :: rest) = true := by
            unfold startsWithWs
            exact h2 c (List.mem_cons_self _ _)
          simp [collectSentences, hstrip, hws]
    rw [hsent]

/-- Witness for C10's theorem at the single-space input. -/
theorem whitespace_only_empty_chunks_witness :
    paragraphChunk 100 " ".toList [] = [] ∧
      sentenceChunk 5 1 " ".toList [] = [] :=
  whitespace_only_empty_chunks " ".toList [] 100 5 1 (by decide) (by decide)

/-- C7 counterexample: the single-space input is non-empty and its sentence
count (0) is ≤ `sentences_per_chunk`, yet `chunk` returns the empty list,
not one chunk with the whole text — the claim as stated fails when no
sentence is found. -/
theorem sentence_whole_text_fails_without_sentences :
    " ".toList ≠ [] ∧
    ((extractSentences " ".toList).length : ℤ) ≤ 5 ∧
    sentenceChunk 5 1 " ".toList [] = [] := by
  decide

/-- C7 amended: whenever at least one sentence is found and the sentence
count is ≤ `sentences_per_chunk`, `chunk` returns exactly one chunk whose
text is the entire original input verbatim, with page numbers computed from
the span from the first sentence's start to the last sentence's end. -/
theorem sentence_whole_text_special_case (spc ov : ℤ) (text : List Char)
    (pages : List Page) (h1 : extractSentences text ≠ [])
    (h2 : ((extractSentences text).length : ℤ) ≤ spc) :
    ∃ s0 slast, (extractSentences text).head? = some s0 ∧
      (extractSentences text).getLast? = some slast ∧
      sentenceChunk spc ov text pages =
        [⟨text, pageNumbersFor (buildPageMap pages) s0.start slast.stop⟩] := by
  have htext : text ≠ [] := by
    intro h
    rw [h] at h1
    exact h1 rfl
  obtain ⟨s0, rest, heq⟩ := List.exists_cons_of_ne_nil h1
  refine ⟨s0, (s0 :: rest).getLast (by simp), ?_, ?_, ?_⟩
  · rw [heq]; rfl
  · rw [heq, List.getLast?_eq_getLast _ (by simp)]
  · rw [heq] at h2
    unfold sentenceChunk
    rw [if_neg htext]
    simp only [heq, if_pos h2]

/-- Witness for C7's amended theorem: `"Hi there. Bye."` with one page. -/
theorem sentence_whole_text_special_case_witness :
    ∃ s0 slast,
      (extractSentences "Hi there. Bye.".toList).head? = some s0 ∧
      (extractSentences "Hi there. Bye.".toList).getLast? = some slast ∧
      sentenceChunk 5 1 "Hi there. Bye.".toList [⟨1, "Hi there. Bye.".toList⟩] =
        [⟨"Hi there. Bye.".toList,
          pageNumbersFor (buildPageMap [⟨1, "Hi there. Bye.".toList⟩])
            s0.start slast.stop⟩] :=
  sentence_whole_text_special_case 5 1 "Hi there. Bye.".toList
    [⟨1, "Hi there. Bye.".toList⟩] (by decide) (by decide)

/-- The running group survives into a single emitted group: some emitted
group contains every index currently in it. -/
theorem semGroupsAux_together (θ : ℚ) : ∀ (sims : List ℚ) (cur : List ℕ)
    (i : ℕ), ∃ g ∈ semGroupsAux θ sims cur i, ∀ x ∈ cur, x ∈ g := by
  intro sims
  induction sims with
  | nil =>
      intro cur i
      exact ⟨cur, List.mem_singleton.mpr rfl, fun x hx => hx⟩
  | cons s srest ih =>
      intro cur i
      by_cases hs : θ ≤ s
      · obtain ⟨g, hg, hsub⟩ := ih (cur ++ [i]) (i + 1)
        refine ⟨g, ?_, fun x hx => hsub x (List.mem_append_left _ hx)⟩
        simpa [semGroupsAux, hs] using hg
      · refine ⟨cur, ?_, fun x hx => hx⟩
        simp [semGroupsAux, hs]

/-- If the similarity consumed at sentence `j` is at least the threshold,
sentences `j - 1` and `j` end up in the same emitted group (provided the
predecessor of the walk's position is in the running group). -/
theorem semGroupsAux_merge (θ : ℚ) : ∀ (sims : List ℚ) (cur : List ℕ)
    (i : ℕ), (i - 1) ∈ cur → 1 ≤ i →
    ∀ (j : ℕ) (s : ℚ), i ≤ j → sims[j - i]? = some s → θ ≤ s →
    ∃ g ∈ semGroupsAux θ sims cur i, (j - 1) ∈ g ∧ j ∈ g := by
  intro sims
  induction sims with
  | nil =>
      intro cur i _ _ j s _ hget _
      simp at hget
  | cons s0 srest ih =>
      intro cur i hprev hi j s hij hget hθ
      rcases Nat.eq_or_lt_of_le hij with rfl | hlt
      · simp only [Nat.sub_self, List.getElem?_cons_zero, Option.some.injEq] at hget
        subst hget
        obtain ⟨g, hg, hsub⟩ := semGroupsAux_together θ srest (cur ++ [i]) (i + 1)
        refine ⟨g, ?_, hsub _ (List.mem_append_left _ hprev),
          hsub _ (List.mem_append_right _ (List.mem_singleton.mpr rfl))⟩
        simpa [semGroupsAux, hθ] using hg
      · have hd : j - i = (j - (i + 1)) + 1 := by omega
        rw [hd, List.getElem?_cons_succ] at hget
        by_cases hs : θ ≤ s0
        · obtain ⟨g, hg, h1, h2⟩ := ih (cur ++ [i]) (i + 1)
            (by simp) (by omega) j s (by omega) hget hθ
          exact ⟨g, by simpa [semGroupsAux, hs] using hg, h1, h2⟩
        · obtain ⟨g, hg, h1, h2⟩ := ih [i] (i + 1) (by simp) (by omega) j s
            (by omega) hget hθ
          refine ⟨g, ?_, h1, h2⟩
          simp only [semGroupsAux, hs, if_false]
          exact List.mem_cons_of_mem _ hg

/-- Every emitted group either continues the running group (same head) or
starts at an index whose incoming similarity was strictly below the
threshold. -/
theorem semGroupsAux_boundary (θ : ℚ) : ∀ (sims : List ℚ) (cur : List ℕ)
    (i : ℕ), cur ≠ [] →
    ∀ g ∈ semGroupsAux θ sims cur i,
      g.head? = cur.head? ∨
      ∃ j s, g.head? = some j ∧ i ≤ j ∧ sims[j - i]? = some s ∧ s < θ := by
  intro sims
  induction sims with
  | nil =>
      intro cur i _ g hg
      rcases List.mem_singleton.mp hg with rfl
      exact Or.inl rfl
  | cons s0 srest ih =>
      intro cur i hcur g hg
      by_cases hs : θ ≤ s0
      · rw [show semGroupsAux θ (s0 :: srest) cur i =
            semGroupsAux θ srest (cur ++ [i]) (i + 1) by
          simp [semGroupsAux, hs]] at hg
        rcases ih (cur ++ [i]) (i + 1) (by simp) g hg with hhead | ⟨j, s, hj, hij, hget, hsθ⟩
        · left
          rw [hhead]
          cases cur with
          | nil => exact absurd rfl hcur
          | cons a t => rfl
        · right
          refine ⟨j, s, hj, by omega, ?_, hsθ⟩
          have hd : j - i = (j - (i + 1)) + 1 := by omega
          rw [hd, List.getElem?_cons_succ]
          exact hget
      · rw [show semGroupsAux θ (s0 :: srest) cur i =
            cur :: semGroupsAux θ srest [i] (i + 1) by
          simp [semGroupsAux, hs]] at hg
        rcases List.mem_cons.mp hg with rfl | hmem
        · exact Or.inl rfl
        · rcases ih [i] (i + 1) (by simp) g hmem with hhead | ⟨j, s, hj, hij, hget, hsθ⟩
          · right
            refine ⟨i, s0, by simpa using hhead, le_refl i, ?_, by exact not_le.mp hs⟩
            simp
          · right
            refine ⟨j, s, hj, by omega, ?_, hsθ⟩
            have hd : j - i = (j - (i + 1)) + 1 := by omega
            rw [hd, List.getElem?_cons_succ]
            exact hget

/-- C6: in the Semantic strategy's pair walk, whenever the cosine
similarity consumed at sentence `i` is greater than or equal to the
threshold (equality included), sentences `i - 1` and `i` end up in the same
emitted group; and a group starts at a sentence other than sentence 0 only
when the similarity consumed there is strictly below the threshold. -/
theorem semantic_threshold_grouping (θ : ℚ) (sims : List ℚ) :
    (∀ (i : ℕ) (s : ℚ), 1 ≤ i → sims[i - 1]? = some s → θ ≤ s →
      ∃ g ∈ semGroups θ sims, (i - 1) ∈ g ∧ i ∈ g) ∧
    (∀ g ∈ semGroups θ sims, ∀ hd, g.head? = some hd → hd ≠ 0 →
      ∃ s, sims[hd - 1]? = some s ∧ s < θ) := by
  constructor
  · intro i s hi hget hθ
    exact semGroupsAux_merge θ sims [0] 1 (by simp) le_rfl i s hi hget hθ
  · intro g hg hd hhd hne
    rcases semGroupsAux_boundary θ sims [0] 1 (by simp) g hg with hhead |
      ⟨j, s, hj, hij, hget, hsθ⟩
    · rw [hhd] at hhead
      simp at hhead
      exact absurd hhead hne
    · rw [hhd] at hj
      rcases Option.some.injEq _ _ ▸ hj with rfl
      exact ⟨s, hget, hsθ⟩

/-- Witness for C6's theorem: threshold 1/2 with similarities
`[1/2, 1/4]` — the boundary pair with similarity exactly the threshold is
merged (sentences 0 and 1 share a group). -/
theorem semantic_threshold_grouping_witness :
    ∃ g ∈ semGroups (1 / 2) [1 / 2, 1 / 4], 0 ∈ g ∧ 1 ∈ g :=
  (semantic_threshold_grouping (1 / 2) [1 / 2, 1 / 4]).1 1 (1 / 2)
    le_rfl rfl le_rfl

/-- A list with no whitespace characters strips to itself. -/
theorem stripL_of_no_ws (l : List Char) (h : ∀ c ∈ l, pyWs c = false) :
    stripL l = l := by
  unfold stripL
  have h1 : l.dropWhile pyWs = l := by
    cases l with
    | nil => rfl
    | cons c t => simp [List.dropWhile_cons, h c (List.mem_cons_self _ _)]
  rw [h1]
  have h2 : l.reverse.dropWhile pyWs = l.reverse := by
    cases hr : l.reverse with
    | nil => rfl
    | cons c t =>
        have hc : c ∈ l := by
          rw [← List.mem_reverse, hr]
          exact List.mem_cons_self _ _
        simp [List.dropWhile_cons, h c hc]
  rw [h2, List.reverse_reverse]

/-- If some character of `sep` does not occur in `text`, then `sep` does
not occur in `text`. -/
theorem findInfixIdx_none (sep : List Char) (c : Char) (hc : c ∈ sep) :
    ∀ (text : List Char), c ∉ text → findInfixIdx sep text = none := by
  intro text
  induction text with
  | nil =>
      intro _
      have hne : ¬ sep = [] := by
        intro h
        rw [h] at hc
        cases hc
      simp [findInfixIdx, hne]
  | cons d t ih =>
      intro hnc
      cases hx : sep.isPrefixOf (d :: t) with
      | true =>
          exact absurd ((List.isPrefixOf_iff_prefix.mp hx).subset hc) hnc
      | false =>
          simp [findInfixIdx, hx,
            ih (fun h => hnc (List.mem_cons_of_mem _ h))]

/-- A token containing no whitespace matches none of the default non-empty
separators (escaped or plain), so separator selection falls through to the
empty-string fallback. -/
theorem chooseSep_token (text : List Char)
    (h : ∀ c ∈ text, pyWs c = false) :
    chooseSep text defaultSeparators = ([], []) := by
  have hn : '\n' ∉ text := by
    intro hm
    have := h _ hm
    simp [pyWs] at this
  have hs : ' ' ∉ text := by
    intro hm
    have := h _ hm
    simp [pyWs] at this
  have e1 : findInfixIdx (pyRegexEscape ['\n', '\n']) text = none :=
    findInfixIdx_none _ '\n' (by decide) text hn
  have e2 : findInfixIdx ['\n', '\n'] text = none :=
    findInfixIdx_none _ '\n' (by decide) text hn
  have e3 : findInfixIdx (pyRegexEscape ['\n']) text = none :=
    findInfixIdx_none _ '\n' (by decide) text hn
  have e4 : findInfixIdx ['\n'] text = none :=
    findInfixIdx_none _ '\n' (by decide) text hn
  have e5 : findInfixIdx (pyRegexEscape [' ']) text = none :=
    findInfixIdx_none _ ' ' (by decide) text hs
  have e6 : findInfixIdx [' '] text = none :=
    findInfixIdx_none _ ' ' (by decide) text hs
  unfold chooseSep defaultSeparators
  simp [chooseSepLoop, occursIn, e1, e2, e3, e4, e5, e6]

/-- Joining with the empty separator is concatenation. -/
theorem intercalate_nil_eq_join : ∀ (l : List (List Char)),
    List.intercalate ([] : List Char) l = l.flatten
  | [] => rfl
  | [_] => by simp [List.intercalate]
  | x :: y :: rest => by
      have ih := intercalate_nil_eq_join (y :: rest)
      simp only [List.intercalate] at ih ⊢
      simp only [List.intersperse_cons₂, List.flatten_cons] at ih ⊢
      rw [ih]
      simp

/-- `sumLen` distributes over append. -/
theorem sumLen_append (a b : List (List Char)) :
    sumLen (a ++ b) = sumLen a + sumLen b := by
  simp [sumLen]

/-- The overlap carry-over (with the empty separator) keeps items
satisfying any property of the input items, keeps its length equal to the
total length of the kept items, and keeps the length at most
`max 0 (chunk_overlap - 1)`. -/
theorem carryGo_spec (co : ℤ) (P : List Char → Prop) :
    ∀ (items oc : List (List Char)) (ol : ℤ),
      (∀ it ∈ items, P it) → (∀ it ∈ oc, P it) →
      ol = (sumLen oc : ℤ) → ol ≤ max 0 (co - 1) →
      (∀ it ∈ (carryGo co 0 items (oc, ol)).1, P it) ∧
      (carryGo co 0 items (oc, ol)).2 =
        (sumLen (carryGo co 0 items (oc, ol)).1 : ℤ) ∧
      (carryGo co 0 items (oc, ol)).2 ≤ max 0 (co - 1) := by
  intro items
  induction items with
  | nil =>
      intro oc ol _ h2 h3 h4
      exact ⟨h2, h3, h4⟩
  | cons item rest ih =>
      intro oc ol h1 h2 h3 h4
      by_cases hc : ol + (item.length : ℤ) < co
      · have hres := ih (item :: oc) (ol + item.length + 0)
          (fun it hit => h1 it (List.mem_cons_of_mem _ hit))
          (fun it hit => by
            rcases List.mem_cons.mp hit with rfl | hmem
            · exact h1 it (List.mem_cons_self _ _)
            · exact h2 it hmem)
          (by simp [sumLen, h3]; ring)
          (by omega)
        simpa [carryGo, hc] using hres
      · simp only [carryGo, if_neg hc]
        exact ⟨h2, h3, h4⟩

/-- Invariant of the packing loop in the empty-separator, no-remaining-
separators case, for splits of single non-whitespace characters: the loop
finishes, every flushed chunk stays within `chunk_size`, the running chunk
keeps its exact length at most `chunk_size`, and it is non-empty once any
split has been processed. -/
theorem mergeNoSep (cs co : ℤ) (r : List Char → Option (List (List Char)))
    (hcs : 1 ≤ cs) (hco : co < cs) :
    ∀ (splits gs cur : List (List Char)) (clen : ℤ),
      (∀ s ∈ splits, s.length = 1 ∧ ∀ c ∈ s, pyWs c = false) →
      (∀ g ∈ gs, (g.length : ℤ) ≤ cs) →
      (∀ it ∈ cur, it.length = 1 ∧ ∀ c ∈ it, pyWs c = false) →
      clen = (sumLen cur : ℤ) → clen ≤ cs →
      ∃ gs2 cur2 clen2,
        mergeLoop cs co [] false r splits gs cur clen =
          some (gs2, cur2, clen2) ∧
        (∀ g ∈ gs2, (g.length : ℤ) ≤ cs) ∧
        (∀ it ∈ cur2, it.length = 1 ∧ ∀ c ∈ it, pyWs c = false) ∧
        clen2 = (sumLen cur2 : ℤ) ∧ clen2 ≤ cs ∧
        ((splits ≠ [] ∨ cur ≠ []) → cur2 ≠ []) := by
  intro splits
  induction splits with
  | nil =>
      intro gs cur clen _ h2 h3 h4 h5
      refine ⟨gs, cur, clen, rfl, h2, h3, h4, h5, ?_⟩
      rintro (h | h)
      · exact absurd rfl h
      · exact h
  | cons split rest ih =>
      intro gs cur clen h1 h2 h3 h4 h5
      have hsp := h1 split (List.mem_cons_self _ _)
      have h1r : ∀ s ∈ rest, s.length = 1 ∧ ∀ c ∈ s, pyWs c = false :=
        fun s hs => h1 s (List.mem_cons_of_mem _ hs)
      simp only [mergeLoop, List.length_nil, Nat.cast_zero, ite_self,
        add_zero, Bool.false_eq_true, and_false, if_false]
      by_cases hover : clen + (split.length : ℤ) > cs
      · rw [if_pos hover]
        by_cases hcur : cur = []
        · exfalso
          subst hcur
          simp [sumLen] at h4
          rw [hsp.1] at hover
          push_cast at hover
          omega
        · rw [if_pos hcur]
          rw [intercalate_nil_eq_join cur]
          have hflat_ws : ∀ c ∈ cur.flatten, pyWs c = false := by
            intro c hc
            rcases List.mem_flatten.mp hc with ⟨l, hl, hcl⟩
            exact (h3 l hl).2 c hcl
          have hflatlen : (cur.flatten.length : ℤ) = clen := by
            rw [h4]
            simp [sumLen]
          have hfne : cur.flatten ≠ [] := by
            obtain ⟨x, xs, rfl⟩ := List.exists_cons_of_ne_nil hcur
            have hx := (h3 x (List.mem_cons_self _ _)).1
            intro hnil
            have := congrArg List.length hnil
            simp [hx] at this
          have hstrip : stripL cur.flatten ≠ [] := by
            rw [stripL_of_no_ws _ hflat_ws]
            exact hfne
          rw [if_pos hstrip]
          have hcarry := carryGo_spec co
            (fun it => it.length = 1 ∧ ∀ c ∈ it, pyWs c = false)
            cur.reverse [] 0
            (fun it hit => h3 it (List.mem_reverse.mp hit))
            (by intro it hit; cases hit)
            (by simp [sumLen]) (le_max_left 0 (co - 1))
          obtain ⟨gs2, cur2, clen2, hml, hg2, hc2, hl2, hb2, hne2⟩ :=
            ih (gs ++ [cur.flatten])
              ((overlapCarry co 0 cur).1 ++ [split])
              ((overlapCarry co 0 cur).2 + split.length) h1r
              (by
                intro g hg
                rcases List.mem_append.mp hg with hg | hg
                · exact h2 g hg
                · rcases List.mem_singleton.mp hg with rfl
                  rw [hflatlen]
                  exact h5)
              (by
                intro it hit
                rcases List.mem_append.mp hit with hit | hit
                · exact hcarry.1 it hit
                · rcases List.mem_singleton.mp hit with rfl
                  exact hsp)
              (by
                unfold overlapCarry
                rw [sumLen_append, hcarry.2.1]
                simp [sumLen, hsp.1])
              (by
                have hb := hcarry.2.2
                simp only [overlapCarry]
                rw [hsp.1]
                push_cast
                omega)
          refine ⟨gs2, cur2, clen2, ?_, hg2, hc2, hl2, hb2,
            fun _ => hne2 (Or.inr (by simp))⟩
          exact hml
      · rw [if_neg hover]
        obtain ⟨gs2, cur2, clen2, hml, hg2, hc2, hl2, hb2, hne2⟩ :=
          ih gs (cur ++ [split]) (clen + split.length) h1r h2
            (by
              intro it hit
              rcases List.mem_append.mp hit with hit | hit
              · exact h3 it hit
              · rcases List.mem_singleton.mp hit with rfl
                exact hsp)
            (by
              rw [sumLen_append, h4]
              push_cast
              simp [sumLen])
            (by omega)
        refine ⟨gs2, cur2, clen2, hml, hg2, hc2, hl2, hb2,
          fun _ => hne2 (Or.inr (by simp))⟩

/-- C4: for the Recursive strategy with the default separators and
`chunk_overlap < chunk_size` (and `chunk_size ≥ 1`, the spec's domain), a
single whitespace-free token longer than `chunk_size` — so that no
configured separator occurs in it except the empty-string fallback — is
split with the empty-separator base case at recursion depth 1 (fuel 1
suffices: the recursion terminates immediately), producing a non-empty
chunk list whose chunks' text lengths are each within `chunk_size`. -/
theorem recursive_token_chunks (cs co : ℤ) (text : List Char)
    (hcs : 1 ≤ cs) (hco : co < cs) (hlong : cs < (text.length : ℤ))
    (htok : ∀ c ∈ text, pyWs c = false) :
    ∃ chunks, splitTextF cs co 1 text defaultSeparators = some chunks ∧
      chunks ≠ [] ∧ ∀ ch ∈ chunks, (ch.length : ℤ) ≤ cs := by
  have htne : text ≠ [] := by
    intro h
    rw [h] at hlong
    simp at hlong
    omega
  have hsel : chooseSep text defaultSeparators = ([], []) :=
    chooseSep_token text htok
  obtain ⟨gs2, cur2, clen2, hml, hg2, hc2, hl2, hb2, hne2⟩ :=
    mergeNoSep cs co (fun _ => none) hcs hco (text.map fun c => [c]) [] [] 0
      (by
        intro s hs
        rcases List.mem_map.mp hs with ⟨c, hc, rfl⟩
        refine ⟨rfl, ?_⟩
        intro d hd
        rcases List.mem_singleton.mp hd with rfl
        exact htok d hc)
      (by intro g hg; cases hg)
      (by intro it hit; cases hit)
      (by simp [sumLen]) (by omega)
  have hcur2 : cur2 ≠ [] := by
    refine hne2 (Or.inl ?_)
    simp [htne]
  have hflat_ws : ∀ c ∈ cur2.flatten, pyWs c = false := by
    intro c hc
    rcases List.mem_flatten.mp hc with ⟨l, hl, hcl⟩
    exact (hc2 l hl).2 c hcl
  have hfne : cur2.flatten ≠ [] := by
    obtain ⟨x, xs, rfl⟩ := List.exists_cons_of_ne_nil hcur2
    have hx := (hc2 x (List.mem_cons_self _ _)).1
    intro hnil
    have := congrArg List.length hnil
    simp [hx] at this
  have hstrip : stripL cur2.flatten ≠ [] := by
    rw [stripL_of_no_ws _ hflat_ws]
    exact hfne
  have hflatlen : (cur2.flatten.length : ℤ) ≤ cs := by
    have : (cur2.flatten.length : ℤ) = clen2 := by
      rw [hl2]
      simp [sumLen]
    rw [this]
    exact hb2
  refine ⟨gs2 ++ [cur2.flatten], ?_, by simp, ?_⟩
  · simp only [splitTextF, hsel, ne_eq, not_true_eq_false, if_false,
      List.isEmpty_nil, Bool.not_true, hml]
    rw [intercalate_nil_eq_join cur2]
    simp [hcur2, hstrip]
  · intro ch hch
    rcases List.mem_append.mp hch with hg | hg
    · exact hg2 ch hg
    · rcases List.mem_singleton.mp hg with rfl
      exact hflatlen

/-- Witness for C4's theorem: `chunk_size = 2`, `chunk_overlap = 1`, the
whitespace-free token `"abcde"`. -/
theorem recursive_token_chunks_witness :
    ∃ chunks, splitTextF 2 1 1 "abcde".toList defaultSeparators =
        some chunks ∧
      chunks ≠ [] ∧ ∀ ch ∈ chunks, (ch.length : ℤ) ≤ 2 :=
  recursive_token_chunks 2 1 "abcde".toList (by decide) (by decide)
    (by decide) (by decide)

end RagSetup
